/-
  Verification of the ray-tracing core of booleancoercion/ray-tracing.

  The Rust source works over `f64`; this development idealizes `f64` as `ℝ`
  (exact real arithmetic, `f64::sqrt` as `Real.sqrt`), which is the standard
  reading of the spec's "within floating-point tolerance" clauses.  The one
  place where genuine IEEE-754 behaviour (NaN/±∞ fall-through of range
  tests) decides an outcome is the `a = 0` degenerate-ray case of
  `Sphere::hit`; the embedding renders it as an explicit guard, documented
  at the definition.

  External library back-ends (nalgebra's complex eigenvalue solver for the
  torus quartic and its LU solver for the parallelogram) are not part of
  this repository; they enter the relevant definitions as oracle
  parameters, and every theorem about those definitions holds for an
  arbitrary oracle.
-/
import Mathlib

noncomputable section

namespace RayTracing

/-! ## Vec3 (src/vec3.rs) -/

/-- `Vec3` from src/vec3.rs: three `f64` components, idealized as reals.
`Point3` and `Color` are aliases of `Vec3` in the source. -/
structure Vec3 where
  x : ℝ
  y : ℝ
  z : ℝ
deriving DecidableEq

namespace Vec3

/-- `impl Neg for Vec3`. -/
instance : Neg Vec3 := ⟨fun v => ⟨-v.x, -v.y, -v.z⟩⟩

/-- `impl Add for Vec3`. -/
instance : Add Vec3 := ⟨fun a b => ⟨a.x + b.x, a.y + b.y, a.z + b.z⟩⟩

/-- `impl Sub for Vec3`: `self + (-rhs)` in the source. -/
instance : Sub Vec3 := ⟨fun a b => a + (-b)⟩

/-- `impl Mul<f64> for Vec3` (scalar on the left via `impl Mul<Vec3> for f64`). -/
instance : SMul ℝ Vec3 := ⟨fun c v => ⟨v.x * c, v.y * c, v.z * c⟩⟩

@[simp] lemma neg_x (v : Vec3) : (-v).x = -v.x := rfl
@[simp] lemma neg_y (v : Vec3) : (-v).y = -v.y := rfl
@[simp] lemma neg_z (v : Vec3) : (-v).z = -v.z := rfl
@[simp] lemma add_x (a b : Vec3) : (a + b).x = a.x + b.x := rfl
@[simp] lemma add_y (a b : Vec3) : (a + b).y = a.y + b.y := rfl
@[simp] lemma add_z (a b : Vec3) : (a + b).z = a.z + b.z := rfl
@[simp] lemma sub_x (a b : Vec3) : (a - b).x = a.x - b.x := by
  show a.x + -b.x = _; ring
@[simp] lemma sub_y (a b : Vec3) : (a - b).y = a.y - b.y := by
  show a.y + -b.y = _; ring
@[simp] lemma sub_z (a b : Vec3) : (a - b).z = a.z - b.z := by
  show a.z + -b.z = _; ring
@[simp] lemma smul_x (c : ℝ) (v : Vec3) : (c • v).x = v.x * c := rfl
@[simp] lemma smul_y (c : ℝ) (v : Vec3) : (c • v).y = v.y * c := rfl
@[simp] lemma smul_z (c : ℝ) (v : Vec3) : (c • v).z = v.z * c := rfl

/-- `Vec3::dot`. -/
def dot (a b : Vec3) : ℝ := a.x * b.x + a.y * b.y + a.z * b.z

/-- `Vec3::length_squared`: `self.dot(&self)`. -/
def length_squared (v : Vec3) : ℝ := v.dot v

/-- `Vec3::length`: `self.length_squared().sqrt()`. -/
def length (v : Vec3) : ℝ := Real.sqrt v.length_squared

/-- `impl Div<f64> for Vec3`: `self * (1.0 / rhs)`. -/
def div (v : Vec3) (c : ℝ) : Vec3 := (1 / c) • v

/-- `Vec3::normalize`: `self / self.length()`. -/
def normalize (v : Vec3) : Vec3 := v.div v.length

/-- `Vec3::near_zero`: every component below `1e-8` in absolute value. -/
def near_zero (v : Vec3) : Prop :=
  |v.x| < 1e-8 ∧ |v.y| < 1e-8 ∧ |v.z| < 1e-8

instance (v : Vec3) : Decidable v.near_zero := by unfold near_zero; infer_instance

/-- `Vec3::random_unit_vec`, as a function of the two random draws it makes:
`z` is drawn from `[-1, 1)` and `phi` from `[0, τ)`. -/
def randomUnitVec (z phi : ℝ) : Vec3 :=
  let sin_theta := Real.sqrt (1 - z * z)
  let cos_phi := Real.cos phi
  ⟨sin_theta * cos_phi, sin_theta * Real.sqrt (1 - cos_phi * cos_phi), z⟩

/-- `Vec3::random_in_unit_sphere`, as a function of the three random draws:
`r` is drawn from `[0, 1)`, the rest feed `random_unit_vec`. -/
def randomInUnitSphere (r z phi : ℝ) : Vec3 :=
  r • randomUnitVec z phi

lemma eq_iff (a b : Vec3) : a = b ↔ a.x = b.x ∧ a.y = b.y ∧ a.z = b.z := by
  constructor
  · rintro rfl; exact ⟨rfl, rfl, rfl⟩
  · rintro ⟨h1, h2, h3⟩; cases a; cases b; simp_all

lemma dot_comm (a b : Vec3) : a.dot b = b.dot a := by
  unfold dot; ring

lemma length_squared_nonneg (v : Vec3) : 0 ≤ v.length_squared := by
  unfold length_squared dot
  nlinarith [mul_self_nonneg v.x, mul_self_nonneg v.y, mul_self_nonneg v.z]

lemma length_nonneg (v : Vec3) : 0 ≤ v.length := Real.sqrt_nonneg _

lemma length_squared_eq_zero_iff (v : Vec3) : v.length_squared = 0 ↔ v = ⟨0, 0, 0⟩ := by
  unfold length_squared dot
  constructor
  · intro h
    have hx : v.x = 0 := by nlinarith [sq_nonneg v.x, sq_nonneg v.y, sq_nonneg v.z]
    have hy : v.y = 0 := by nlinarith [sq_nonneg v.x, sq_nonneg v.y, sq_nonneg v.z]
    have hz : v.z = 0 := by nlinarith [sq_nonneg v.x, sq_nonneg v.y, sq_nonneg v.z]
    cases v; simp_all
  · rintro rfl; norm_num

lemma length_squared_pos_of_ne_zero {v : Vec3} (h : v ≠ ⟨0, 0, 0⟩) :
    0 < v.length_squared := by
  rcases lt_or_eq_of_le (length_squared_nonneg v) with h' | h'
  · exact h'
  · exact absurd ((length_squared_eq_zero_iff v).mp h'.symm) h

lemma length_pos_of_ne_zero {v : Vec3} (h : v ≠ ⟨0, 0, 0⟩) : 0 < v.length :=
  Real.sqrt_pos.mpr (length_squared_pos_of_ne_zero h)

lemma sq_length (v : Vec3) : v.length ^ 2 = v.length_squared :=
  Real.sq_sqrt (length_squared_nonneg v)

lemma length_squared_smul (c : ℝ) (v : Vec3) :
    (c • v).length_squared = c ^ 2 * v.length_squared := by
  unfold length_squared dot; simp; ring

lemma length_smul (c : ℝ) (v : Vec3) : (c • v).length = |c| * v.length := by
  unfold length
  rw [length_squared_smul, Real.sqrt_mul (sq_nonneg c), Real.sqrt_sq_eq_abs]

lemma length_neg (v : Vec3) : (-v).length = v.length := by
  unfold length length_squared dot; norm_num

/-- The normalized vector of a nonzero vector is unit length. -/
lemma length_normalize {v : Vec3} (h : v ≠ ⟨0, 0, 0⟩) : v.normalize.length = 1 := by
  unfold normalize div
  have hl : 0 < v.length := length_pos_of_ne_zero h
  rw [length_smul, abs_of_pos (by positivity)]
  field_simp

lemma dot_self_normalize {v : Vec3} (h : v ≠ ⟨0, 0, 0⟩) :
    v.normalize.dot v.normalize = 1 := by
  have h1 := length_normalize h
  have := sq_length v.normalize
  rw [h1] at this
  unfold length_squared at this
  linarith [this]

end Vec3

/-! ## Ray and Hit (src/collision/mod.rs) -/

/-- `Ray` from src/collision/mod.rs. -/
structure Ray where
  origin : Vec3
  direction : Vec3

/-- `Ray::at`: `origin + t * direction`. -/
def Ray.at (ray : Ray) (t : ℝ) : Vec3 := ray.origin + t • ray.direction

/-- `Hit` from src/collision/mod.rs.  The `material` field of the source is an
`Arc<dyn Material>` trait object; the embedding is polymorphic in its type. -/
structure Hit (M : Type) where
  point : Vec3
  normal : Vec3
  t : ℝ
  front_face : Bool
  material : M

/-- `Hit::with_face_normal`: flips the outward normal when the ray comes from
inside, recording `front_face` accordingly (the source binds
`front_face = ray.direction.dot(&outward_normal) < 0.0` once; here the
condition is written out at both use sites). -/
def Hit.withFaceNormal {M : Type} (ray : Ray) (outward_normal : Vec3) (t : ℝ)
    (material : M) : Hit M :=
  { point := ray.at t
    normal :=
      if ray.direction.dot outward_normal < 0 then outward_normal else -outward_normal
    t := t
    front_face := decide (ray.direction.dot outward_normal < 0)
    material := material }

@[simp] lemma Hit.withFaceNormal_t {M : Type} (ray : Ray) (n : Vec3) (t : ℝ) (m : M) :
    (Hit.withFaceNormal ray n t m).t = t := rfl

@[simp] lemma Hit.withFaceNormal_point {M : Type} (ray : Ray) (n : Vec3) (t : ℝ) (m : M) :
    (Hit.withFaceNormal ray n t m).point = ray.at t := rfl

lemma Hit.withFaceNormal_normal {M : Type} (ray : Ray) (n : Vec3) (t : ℝ) (m : M) :
    (Hit.withFaceNormal ray n t m).normal
      = if ray.direction.dot n < 0 then n else -n := rfl

lemma Hit.withFaceNormal_front {M : Type} (ray : Ray) (n : Vec3) (t : ℝ) (m : M) :
    (Hit.withFaceNormal ray n t m).front_face = decide (ray.direction.dot n < 0) := rfl

/-! ## Sphere (src/collision/objects.rs) -/

/-- `Sphere` from src/collision/objects.rs. -/
structure Sphere (M : Type) where
  center : Vec3
  radius : ℝ
  material : M

/-- `impl Hittable for Sphere`.  Solves `a·t² + 2·half_b·t + c = 0` and keeps
the nearest root inside the half-open window `[t_min, t_max)`.

The source divides by `a` unguarded; when `a = 0` (zero-length direction, the
only way `|direction|²` vanishes) the Rust `f64` quotient is NaN or ±∞, every
one of which fails the `(t_min..t_max).contains` test — for NaN both
comparisons are false, `+∞` fails `root < t_max` (also when `t_max` is
`f64::INFINITY`), `-∞` fails `t_min ≤ root` — so no root is ever accepted.
The embedding renders that IEEE fall-through as the explicit `a = 0` guard. -/
def Sphere.hit {M : Type} (s : Sphere M) (ray : Ray) (t_min t_max : ℝ) :
    Option (Hit M) :=
  let oc : Vec3 := ray.origin - s.center
  let a := ray.direction.length_squared
  let half_b := oc.dot ray.direction
  let c := oc.length_squared - s.radius * s.radius
  let discriminant := half_b * half_b - a * c
  if discriminant < 0 then none
  else if a = 0 then none
  else
    let sqrtd := Real.sqrt discriminant
    let root1 := (-half_b - sqrtd) / a
    let root2 := (-half_b + sqrtd) / a
    if t_min ≤ root1 ∧ root1 < t_max then
      let point := ray.at root1
      some (Hit.withFaceNormal ray ((point - s.center).div s.radius) root1 s.material)
    else if t_min ≤ root2 ∧ root2 < t_max then
      let point := ray.at root2
      some (Hit.withFaceNormal ray ((point - s.center).div s.radius) root2 s.material)
    else none

/-! ## Materials (src/collision/materials.rs) -/

/-- `reflect`: `*v - 2.0 * v.dot(n) * *n`. -/
def reflect (v n : Vec3) : Vec3 := v - (2 * v.dot n) • n

/-- `reflectance`: Schlick's approximation. -/
def reflectance (cosine refraction_index : ℝ) : ℝ :=
  let r0 := (1 - refraction_index) / (1 + refraction_index)
  let r0sq := r0 * r0
  r0sq + (1 - r0sq) * (1 - cosine) ^ (5 : ℕ)

/-- `refract`: Snell decomposition into perpendicular and parallel parts. -/
def refract (r_in normal : Vec3) (etai_over_etat : ℝ) : Vec3 :=
  let cos_theta := min ((-r_in).dot normal) 1
  let r_out_perp := etai_over_etat • (r_in + cos_theta • normal)
  let r_out_parallel := (-(Real.sqrt (1 - r_out_perp.length_squared))) • normal
  r_out_perp + r_out_parallel

/-- `Lambertian` from src/collision/materials.rs. -/
structure Lambertian where
  albedo : Vec3

/-- `impl Material for Lambertian`, as a function of the random unit vector
`runit` the source draws with `Vec3::random_unit_vec`. -/
def Lambertian.scatter {M : Type} (l : Lambertian) (_ray : Ray) (hit : Hit M)
    (runit : Vec3) : Option (Vec3 × Ray) :=
  let scatter_direction :=
    let dir := hit.normal + runit
    if dir.near_zero then hit.normal else dir
  some (l.albedo, { origin := hit.point, direction := scatter_direction })

/-- `Metal` from src/collision/materials.rs. -/
structure Metal where
  albedo : Vec3
  fuzz : ℝ

/-- `Metal::new`: clamps `|fuzz| ≥ 1` to `1`. -/
def Metal.new (albedo : Vec3) (fuzz : ℝ) : Metal :=
  ⟨albedo, if |fuzz| < 1 then fuzz else 1⟩

/-- `impl Material for Metal`, as a function of the random vector `rvec` the
source draws with `Vec3::random_in_unit_sphere` (only used when `fuzz ≠ 0`). -/
def Metal.scatter {M : Type} (m : Metal) (ray : Ray) (hit : Hit M)
    (rvec : Vec3) : Option (Vec3 × Ray) :=
  let reflected := reflect ray.direction hit.normal
  let direction := if m.fuzz = 0 then reflected else reflected + m.fuzz • rvec
  if reflected.dot hit.normal > 0 then
    some (m.albedo, { origin := hit.point, direction := direction })
  else none

/-- `Dielectric` from src/collision/materials.rs holds only the refraction
index `ri`.  `impl Material for Dielectric`, as a function of the uniform
`[0, 1)` draw `rand` the source takes with `rand::random()`.  `eta` is the
source's `refraction_ratio`. -/
def Dielectric.scatter {M : Type} (ri : ℝ) (ray : Ray) (hit : Hit M)
    (rand : ℝ) : Option (Vec3 × Ray) :=
  let eta := if hit.front_face then 1 / ri else ri
  let unit_direction := ray.direction.normalize
  let cos_theta := min ((-unit_direction).dot hit.normal) 1
  let sin_theta := Real.sqrt (1 - cos_theta * cos_theta)
  let cannot_refract := eta * sin_theta > 1
  let direction :=
    if cannot_refract ∨ reflectance cos_theta eta > rand then
      reflect unit_direction hit.normal
    else
      refract unit_direction hit.normal eta
  some (⟨1, 1, 1⟩, { origin := hit.point, direction := direction })

/-! ## Torus (src/collision/objects.rs) -/

/-- `Torus` from src/collision/objects.rs. -/
structure Torus (M : Type) where
  center : Vec3
  major : ℝ
  minor : ℝ
  material : M

/-- The source's `.fold(f64::INFINITY, |a, b| a.min(b))` over the filtered
roots, with `none` standing for the untouched `f64::INFINITY` (the source
follows the fold with an `is_infinite` check). -/
def foldMin (l : List ℝ) : Option ℝ :=
  l.foldl (fun acc b => some (acc.elim b (fun a => min a b))) none

/-- `impl Hittable for Torus`.  The source hands the quartic's 5×5 companion
matrix to nalgebra's `complex_eigenvalues`; that external solver enters here
as the oracle `eigs`, applied to the coefficients `a4 a3 a2 a1 a0`. -/
def Torus.hit {M : Type} (eigs : ℝ → ℝ → ℝ → ℝ → ℝ → List ℂ)
    (tor : Torus M) (ray : Ray) (t_min t_max : ℝ) : Option (Hit M) :=
  let oc : Vec3 := ray.origin - tor.center
  let alpha := ray.direction.length_squared
  let beta := 2 * oc.dot ray.direction
  let gamma := oc.length_squared + tor.major * tor.major - tor.minor * tor.minor
  let o2 : Vec3 := ⟨oc.x, oc.y, 0⟩
  let d2 : Vec3 := ⟨ray.direction.x, ray.direction.y, 0⟩
  let R2_4 := 4 * tor.major * tor.major
  let a4 := alpha * alpha
  let a3 := 2 * alpha * beta
  let a2 := 2 * alpha * gamma + beta * beta - R2_4 * d2.length_squared
  let a1 := 2 * (beta * gamma - R2_4 * o2.dot d2)
  let a0 := gamma * gamma - R2_4 * o2.length_squared
  let sols := (eigs a4 a3 a2 a1 a0).filterMap fun eigen =>
    if |eigen.im| > 1e-15 then none
    else if t_min ≤ eigen.re ∧ eigen.re < t_max then some eigen.re
    else none
  match foldMin sols with
  | none => none
  | some solution =>
    let pt := ray.at solution - tor.center
    let coeff := tor.major * tor.major / Real.sqrt (pt.x * pt.x + pt.y * pt.y)
    let normal := (Vec3.mk (1 - coeff * pt.x) (1 - coeff * pt.y) pt.z).normalize
    some (Hit.withFaceNormal ray normal solution tor.material)

/-! ## Parallelogram (src/collision/objects.rs) -/

/-- The `TRIPLETS` constant: for each entry `(x, y, z)`, the planes spanned by
axes `x`, `y` are tested, offset by axis `z`. -/
def TRIPLETS : List (Fin 3 × Fin 3 × Fin 3) := [(1, 2, 0), (2, 0, 1), (0, 1, 2)]

/-- `Parallelogram` from src/collision/objects.rs (fields as stored by
`Parallelogram::new`: a corner, three edge axes, three unit face normals). -/
structure Parallelogram (M : Type) where
  corner : Vec3
  axes : Fin 3 → Vec3
  normals : Fin 3 → Vec3
  material : M

/-- One candidate acceptance test of the parallelogram loop (the source has
two copies of this block, one for the floor and one for the ceiling plane):
if the system was solved, the ray parameter (solution component 2) improves on
the current best within `[t_min, ·)` and both in-plane coordinates lie in
`[0, 1)`, the state becomes this candidate with the given signed normal. -/
def pgUpdate (t_min : ℝ) (st : ℝ × Option Vec3) (cand : Option Vec3)
    (nrm : Vec3) : ℝ × Option Vec3 :=
  match cand with
  | some f =>
    if (t_min ≤ f.z ∧ f.z < st.1) ∧ (0 ≤ f.x ∧ f.x < 1) ∧ (0 ≤ f.y ∧ f.y < 1) then
      (f.z, some nrm)
    else st
  | none => st

/-- One iteration of the `for (x, y, z) in TRIPLETS` loop of
`impl Hittable for Parallelogram`: solve the floor and ceiling 3×3 systems
(columns `axes[x], axes[y], -rd`, right-hand sides `ro − corner` and
`ro − corner − axes[z]`) and run the acceptance test on each in turn.
`solve` is nalgebra's LU solver, an external oracle; `none` models
`solve_mut` returning `false`. -/
def pgStep {M : Type} (solve : Vec3 → Vec3 → Vec3 → Vec3 → Option Vec3)
    (p : Parallelogram M) (ro rd : Vec3) (t_min : ℝ)
    (st : ℝ × Option Vec3) (xyz : Fin 3 × Fin 3 × Fin 3) : ℝ × Option Vec3 :=
  let x := xyz.1
  let y := xyz.2.1
  let z := xyz.2.2
  let floor := solve (p.axes x) (p.axes y) (-rd) (ro - p.corner)
  let ceiling := solve (p.axes x) (p.axes y) (-rd) (ro - p.corner - p.axes z)
  pgUpdate t_min (pgUpdate t_min st floor (-(p.normals z))) ceiling (p.normals z)

/-- `impl Hittable for Parallelogram`: fold the loop body over `TRIPLETS`
starting from `t = t_max`, `normal = None`. -/
def Parallelogram.hit {M : Type} (solve : Vec3 → Vec3 → Vec3 → Vec3 → Option Vec3)
    (p : Parallelogram M) (ray : Ray) (t_min t_max : ℝ) : Option (Hit M) :=
  let st := TRIPLETS.foldl (pgStep solve p ray.origin ray.direction t_min) (t_max, none)
  match st.2 with
  | none => none
  | some normal => some (Hit.withFaceNormal ray normal st.1 p.material)

/-! ## The hittable collection (src/collision/mod.rs, `impl Hittable for [T]`) -/

/-- The loop body state of `impl<T: Hittable> Hittable for [T]`: scan the
members, narrowing `t_max` to each accepted hit's `t`.  `hitFn` is the
trait-method `T::hit` of the member type. -/
def listHitAux {A M : Type} (hitFn : A → Ray → ℝ → ℝ → Option (Hit M))
    (ray : Ray) (t_min : ℝ) : List A → ℝ → Option (Hit M) → Option (Hit M)
  | [], _, closest_hit => closest_hit
  | object :: rest, t_max, closest_hit =>
    match hitFn object ray t_min t_max with
    | some hit => listHitAux hitFn ray t_min rest hit.t (some hit)
    | none => listHitAux hitFn ray t_min rest t_max closest_hit

/-- `impl<T: Hittable> Hittable for [T]` (and `Vec<T>`, which delegates). -/
def listHit {A M : Type} (hitFn : A → Ray → ℝ → ℝ → Option (Hit M))
    (objects : List A) (ray : Ray) (t_min t_max : ℝ) : Option (Hit M) :=
  listHitAux hitFn ray t_min objects t_max none

/-! ## General helper lemmas -/

lemma sqrt_eq_num {a b : ℝ} (hb : 0 ≤ b) (h : b * b = a) : Real.sqrt a = b := by
  rw [← h, Real.sqrt_mul_self hb]

lemma Vec3.neg_dot (a b : Vec3) : (-a).dot b = -(a.dot b) := by
  unfold Vec3.dot; simp; ring

/-! ## C7: degenerate (zero-direction) rays -/

/-- C7: for every sphere, every window, and every ray whose direction is the
zero vector (so the quadratic coefficient `a = |direction|²` is 0),
`Sphere::hit` returns no hit rather than crashing or reporting one. -/
theorem C7_sphere_zero_direction_no_hit {M : Type} (s : Sphere M) (origin : Vec3)
    (t_min t_max : ℝ) :
    Sphere.hit s { origin := origin, direction := ⟨0, 0, 0⟩ } t_min t_max = none := by
  unfold Sphere.hit
  norm_num [Vec3.length_squared, Vec3.dot]

/-! ## C8: Lambertian always scatters -/

/-- C8: for every incoming ray, hit record, and random draw,
`Lambertian::scatter` returns `Some` with attenuation equal to its albedo; the
scattered direction is `normal + random unit vector`, falling back to the
normal itself when that sum is near zero. -/
theorem C8_lambertian_always_scatters {M : Type} (l : Lambertian) (ray : Ray)
    (hit : Hit M) (runit : Vec3) :
    ∃ scattered : Ray,
      Lambertian.scatter l ray hit runit = some (l.albedo, scattered) ∧
      scattered.origin = hit.point ∧
      ((hit.normal + runit).near_zero → scattered.direction = hit.normal) ∧
      (¬ (hit.normal + runit).near_zero → scattered.direction = hit.normal + runit) := by
  by_cases h : (hit.normal + runit).near_zero
  · exact ⟨⟨hit.point, hit.normal⟩, by unfold Lambertian.scatter; rw [if_pos h],
      rfl, fun _ => rfl, fun h2 => absurd h h2⟩
  · exact ⟨⟨hit.point, hit.normal + runit⟩, by unfold Lambertian.scatter; rw [if_neg h],
      rfl, fun h2 => absurd h2 h, fun _ => rfl⟩

/-- Witness for C8 at a concrete scene where `normal + runit` is exactly zero
(so the degenerate-direction fallback fires). -/
theorem C8_witness :
    ∃ scattered : Ray,
      Lambertian.scatter ⟨⟨1, 0, 0⟩⟩ (Ray.mk ⟨0, 0, 0⟩ ⟨1, 0, 0⟩)
          (Hit.mk ⟨0, 0, 0⟩ ⟨0, 0, 1⟩ 1 true () : Hit Unit) ⟨0, 0, -1⟩
        = some ((⟨⟨1, 0, 0⟩⟩ : Lambertian).albedo, scattered) ∧
      scattered.origin = (Hit.mk ⟨0, 0, 0⟩ ⟨0, 0, 1⟩ 1 true () : Hit Unit).point ∧
      (((Hit.mk ⟨0, 0, 0⟩ ⟨0, 0, 1⟩ 1 true () : Hit Unit).normal
          + ⟨0, 0, -1⟩).near_zero →
        scattered.direction = (Hit.mk ⟨0, 0, 0⟩ ⟨0, 0, 1⟩ 1 true () : Hit Unit).normal) ∧
      (¬ ((Hit.mk ⟨0, 0, 0⟩ ⟨0, 0, 1⟩ 1 true () : Hit Unit).normal
          + ⟨0, 0, -1⟩).near_zero →
        scattered.direction
          = (Hit.mk ⟨0, 0, 0⟩ ⟨0, 0, 1⟩ 1 true () : Hit Unit).normal + ⟨0, 0, -1⟩) :=
  C8_lambertian_always_scatters ⟨⟨1, 0, 0⟩⟩ (Ray.mk ⟨0, 0, 0⟩ ⟨1, 0, 0⟩)
    (Hit.mk ⟨0, 0, 0⟩ ⟨0, 0, 1⟩ 1 true ()) ⟨0, 0, -1⟩

/-! ## C9: random_unit_vec stays in the closed upper half-space y ≥ 0 -/

/-- C9: for every pair of random draws (`z` from `[-1, 1)`, `phi` arbitrary),
`Vec3::random_unit_vec` returns a vector of length 1 whose `y` component is
nonnegative — it never produces a direction with `y < 0`, so it does not
sample the full unit sphere. -/
theorem C9_random_unit_vec_unit_and_upper (z phi : ℝ) (h1 : -1 ≤ z) (h2 : z ≤ 1) :
    (Vec3.randomUnitVec z phi).length = 1 ∧ 0 ≤ (Vec3.randomUnitVec z phi).y := by
  have hz : 0 ≤ 1 - z * z := by nlinarith
  have hc : 0 ≤ 1 - Real.cos phi * Real.cos phi := by
    nlinarith [Real.neg_one_le_cos phi, Real.cos_le_one phi]
  have h3 : Real.sqrt (1 - z * z) * Real.sqrt (1 - z * z) = 1 - z * z :=
    Real.mul_self_sqrt hz
  have h4 : Real.sqrt (1 - Real.cos phi * Real.cos phi)
      * Real.sqrt (1 - Real.cos phi * Real.cos phi)
      = 1 - Real.cos phi * Real.cos phi :=
    Real.mul_self_sqrt hc
  constructor
  · unfold Vec3.length
    apply sqrt_eq_num (by norm_num)
    unfold Vec3.randomUnitVec Vec3.length_squared Vec3.dot
    simp only
    nlinarith [h3, h4]
  · unfold Vec3.randomUnitVec
    simp only
    positivity

/-- Witness for C9 at `z = 0`, `phi = 0` (the result is `(1, 0, 0)`). -/
theorem C9_witness :
    ((-1 : ℝ) ≤ 0 ∧ (0 : ℝ) ≤ 1) ∧
    ((Vec3.randomUnitVec 0 0).length = 1 ∧ 0 ≤ (Vec3.randomUnitVec 0 0).y) :=
  ⟨⟨by norm_num, by norm_num⟩,
    C9_random_unit_vec_unit_and_upper 0 0 (by norm_num) (by norm_num)⟩

/-! ## C4: Metal with fuzz = 0 is a perfect mirror -/

/-- C4: `Metal::scatter` with `fuzz = 0` returns the exact mirror reflection
`d − 2(d·n)n` with attenuation equal to the albedo, and rejects (returns
`None`) if and only if `reflected · normal ≤ 0`. -/
theorem C4_metal_fuzz_zero_mirror {M : Type} (albedo : Vec3) (ray : Ray)
    (hit : Hit M) (rvec : Vec3) :
    (∀ out, Metal.scatter ⟨albedo, 0⟩ ray hit rvec = some out →
        out.1 = albedo ∧
        out.2.direction
          = ray.direction - (2 * ray.direction.dot hit.normal) • hit.normal) ∧
    (Metal.scatter ⟨albedo, 0⟩ ray hit rvec = none ↔
        (ray.direction - (2 * ray.direction.dot hit.normal) • hit.normal).dot hit.normal
          ≤ 0) := by
  unfold Metal.scatter reflect
  simp only [if_pos rfl]
  by_cases h : (ray.direction - (2 * ray.direction.dot hit.normal) • hit.normal).dot hit.normal
      > 0
  · rw [if_pos h]
    constructor
    · intro out hout
      cases hout
      exact ⟨rfl, rfl⟩
    · simp only [iff_false_intro (not_le.mpr h), iff_false]
      intro hc
      exact Option.noConfusion hc
  · rw [if_neg h]
    exact ⟨fun out hout => Option.noConfusion hout, by simp [not_lt.mp h]⟩

/-- Witness for C4: `n = (0,0,1)`, `d = (0,0,-1)`; the mirror reflection is
`(0,0,1)` and the scatter is accepted. -/
theorem C4_witness :
    ((⟨1, 1, 1⟩, Ray.mk ⟨5, 6, 7⟩ ⟨0, 0, 1⟩) : Vec3 × Ray).1 = ⟨1, 1, 1⟩ ∧
    ((⟨1, 1, 1⟩, Ray.mk ⟨5, 6, 7⟩ ⟨0, 0, 1⟩) : Vec3 × Ray).2.direction
      = (Ray.mk ⟨0, 0, 0⟩ ⟨0, 0, -1⟩).direction
        - (2 * (Ray.mk ⟨0, 0, 0⟩ ⟨0, 0, -1⟩).direction.dot
            (Hit.mk ⟨5, 6, 7⟩ ⟨0, 0, 1⟩ 1 true () : Hit Unit).normal)
          • (Hit.mk ⟨5, 6, 7⟩ ⟨0, 0, 1⟩ 1 true () : Hit Unit).normal :=
  (C4_metal_fuzz_zero_mirror ⟨1, 1, 1⟩ (Ray.mk ⟨0, 0, 0⟩ ⟨0, 0, -1⟩)
      (Hit.mk ⟨5, 6, 7⟩ ⟨0, 0, 1⟩ 1 true ()) ⟨0, 0, 0⟩).1
    (⟨1, 1, 1⟩, Ray.mk ⟨5, 6, 7⟩ ⟨0, 0, 1⟩)
    (by
      unfold Metal.scatter reflect
      norm_num [Vec3.dot, Vec3.eq_iff, Ray.mk.injEq])

/-! ## C10: fuzzed Metal can scatter into the surface -/

/-- C10: `Metal::scatter` tests absorption on the un-fuzzed reflection only,
so for every `fuzz > 0` there are an incoming ray, a hit record, and a random
draw of `Vec3::random_in_unit_sphere` for which it returns `Some` with a
scattered direction pointing into the surface (`direction · normal ≤ 0`). -/
theorem C10_metal_fuzz_can_point_inward (fuzz : ℝ) (hf : 0 < fuzz) :
    ∃ (albedo : Vec3) (ray : Ray) (hit : Hit Unit) (r z phi : ℝ),
      (0 ≤ r ∧ r < 1) ∧ (-1 ≤ z ∧ z < 1) ∧ (0 ≤ phi ∧ phi < 2 * Real.pi) ∧
      ∃ out,
        Metal.scatter ⟨albedo, fuzz⟩ ray hit (Vec3.randomInUnitSphere r z phi)
          = some out ∧
        out.2.direction.dot hit.normal ≤ 0 := by
  have hpi : (0 : ℝ) < 2 * Real.pi := by positivity
  have hrv : Vec3.randomInUnitSphere (1 / 2) (-1) 0 = ⟨0, 0, -(1 / 2)⟩ := by
    unfold Vec3.randomInUnitSphere Vec3.randomUnitVec
    norm_num [Real.cos_zero, Real.sqrt_zero, Vec3.eq_iff]
  refine ⟨⟨1, 1, 1⟩, ⟨⟨0, 0, 0⟩, ⟨0, 0, -(fuzz / 4)⟩⟩, ⟨⟨0, 0, 0⟩, ⟨0, 0, 1⟩, 1, true, ()⟩,
    1 / 2, -1, 0, ⟨by norm_num, by norm_num⟩, ⟨by norm_num, by norm_num⟩,
    ⟨le_refl 0, hpi⟩, ?_⟩
  rw [hrv]
  simp only [Metal.scatter, reflect]
  norm_num [Vec3.dot, hf.ne']
  refine ⟨_, _, ⟨by linarith, rfl, rfl⟩, ?_⟩
  norm_num
  linarith

/-- Witness for C10 at `fuzz = 1/2`. -/
theorem C10_witness :
    (0 : ℝ) < 1 / 2 ∧
    ∃ (albedo : Vec3) (ray : Ray) (hit : Hit Unit) (r z phi : ℝ),
      (0 ≤ r ∧ r < 1) ∧ (-1 ≤ z ∧ z < 1) ∧ (0 ≤ phi ∧ phi < 2 * Real.pi) ∧
      ∃ out,
        Metal.scatter ⟨albedo, 1 / 2⟩ ray hit (Vec3.randomInUnitSphere r z phi)
          = some out ∧
        out.2.direction.dot hit.normal ≤ 0 :=
  ⟨by norm_num, C10_metal_fuzz_can_point_inward (1 / 2) (by norm_num)⟩

/-! ## C1/C5: sphere-hit geometry -/

/-- A parameter `root` of the sphere quadratic puts `ray.at root` at distance
`radius` from the center. -/
lemma at_root_length_squared (o ctr d : Vec3) (root rad : ℝ)
    (hq : d.length_squared * root ^ 2 + 2 * ((o - ctr).dot d) * root
        + ((o - ctr).length_squared - rad * rad) = 0) :
    ((o + root • d) - ctr).length_squared = rad * rad := by
  unfold Vec3.length_squared Vec3.dot at hq ⊢
  simp only [Vec3.add_x, Vec3.add_y, Vec3.add_z, Vec3.sub_x, Vec3.sub_y, Vec3.sub_z,
    Vec3.smul_x, Vec3.smul_y, Vec3.smul_z] at hq ⊢
  linear_combination hq

/-- Geometry of the hit record built for an accepted sphere root. -/
lemma sphere_root_case {M : Type} (s : Sphere M) (ray : Ray) (root : ℝ)
    (hr : 0 < s.radius)
    (hq : (ray.at root - s.center).length_squared = s.radius * s.radius) :
    (((Hit.withFaceNormal ray ((ray.at root - s.center).div s.radius) root
        s.material).point - s.center).length = s.radius) ∧
    ((Hit.withFaceNormal ray ((ray.at root - s.center).div s.radius) root
        s.material).normal.length = 1) ∧
    ((Hit.withFaceNormal ray ((ray.at root - s.center).div s.radius) root
        s.material).normal.dot ray.direction ≤ 0) ∧
    ((((Hit.withFaceNormal ray ((ray.at root - s.center).div s.radius) root
        s.material).point - s.center).div s.radius).dot ray.direction < 0 ↔
      (Hit.withFaceNormal ray ((ray.at root - s.center).div s.radius) root
        s.material).front_face = true) := by
  have hlen : (ray.at root - s.center).length = s.radius := by
    unfold Vec3.length
    exact sqrt_eq_num hr.le hq.symm
  have hout : ((ray.at root - s.center).div s.radius).length = 1 := by
    unfold Vec3.div
    rw [Vec3.length_smul, hlen, abs_of_pos (by positivity : (0 : ℝ) < 1 / s.radius)]
    field_simp
  rw [Hit.withFaceNormal_point, Hit.withFaceNormal_normal, Hit.withFaceNormal_front]
  refine ⟨hlen, ?_, ?_, ?_⟩
  · by_cases hface : ray.direction.dot ((ray.at root - s.center).div s.radius) < 0
    · rw [if_pos hface]; exact hout
    · rw [if_neg hface, Vec3.length_neg]; exact hout
  · by_cases hface : ray.direction.dot ((ray.at root - s.center).div s.radius) < 0
    · rw [if_pos hface, Vec3.dot_comm]
      exact le_of_lt hface
    · rw [if_neg hface, Vec3.neg_dot, Vec3.dot_comm]
      linarith [not_lt.mp hface]
  · rw [decide_eq_true_eq, Vec3.dot_comm]

/-- C1 (amended): for every positive-radius sphere, any hit reported by
`Sphere::hit` satisfies `|ray.at(t) − center| = radius`, its normal is unit
length and satisfies `normal · ray.direction ≤ 0`, and the *outward* normal
`(point − center)/radius` has negative dot with `ray.direction` exactly when
`front_face` is true.  (The claim's biconditional about the *reported* normal
is refuted by `C1_counterexample`: on a back-face hit the reported normal is
the flipped one, so its dot with the direction is negative there too.) -/
theorem C1_sphere_hit_geometry {M : Type} (s : Sphere M) (ray : Ray)
    (t_min t_max : ℝ) (h : Hit M) (hr : 0 < s.radius)
    (hh : s.hit ray t_min t_max = some h) :
    (h.point - s.center).length = s.radius ∧
    h.normal.length = 1 ∧
    h.normal.dot ray.direction ≤ 0 ∧
    (((h.point - s.center).div s.radius).dot ray.direction < 0 ↔
      h.front_face = true) := by
  simp only [Sphere.hit] at hh
  split_ifs at hh with hdisc hA h1 h2
  · -- the smaller root was accepted
    injection hh with hh
    subst hh
    set a := ray.direction.length_squared with ha
    set half_b := (ray.origin - s.center).dot ray.direction with hhb
    set c := (ray.origin - s.center).length_squared - s.radius * s.radius with hc
    set sq := Real.sqrt (half_b * half_b - a * c) with hsq
    set root := (-half_b - sq) / a with hroot
    have e1 : a * root = -half_b - sq := by
      rw [hroot]; field_simp
    have e2 : sq * sq = half_b * half_b - a * c :=
      Real.mul_self_sqrt (not_lt.mp hdisc)
    have key : a * (a * root ^ 2 + 2 * half_b * root + c) = 0 := by
      linear_combination (a * root + half_b - sq) * e1 + e2
    have hquad : a * root ^ 2 + 2 * half_b * root + c = 0 := by
      rcases mul_eq_zero.mp key with h' | h'
      · exact absurd h' hA
      · exact h'
    exact sphere_root_case s ray root hr
      (at_root_length_squared ray.origin s.center ray.direction root s.radius
        (by linear_combination hquad))
  · -- the larger root was accepted
    injection hh with hh
    subst hh
    set a := ray.direction.length_squared with ha
    set half_b := (ray.origin - s.center).dot ray.direction with hhb
    set c := (ray.origin - s.center).length_squared - s.radius * s.radius with hc
    set sq := Real.sqrt (half_b * half_b - a * c) with hsq
    set root := (-half_b + sq) / a with hroot
    have e1 : a * root = -half_b + sq := by
      rw [hroot]; field_simp
    have e2 : sq * sq = half_b * half_b - a * c :=
      Real.mul_self_sqrt (not_lt.mp hdisc)
    have key : a * (a * root ^ 2 + 2 * half_b * root + c) = 0 := by
      linear_combination (a * root + half_b + sq) * e1 + e2
    have hquad : a * root ^ 2 + 2 * half_b * root + c = 0 := by
      rcases mul_eq_zero.mp key with h' | h'
      · exact absurd h' hA
      · exact h'
    exact sphere_root_case s ray root hr
      (at_root_length_squared ray.origin s.center ray.direction root s.radius
        (by linear_combination hquad))

/-- The single-sphere scene of the spec's end-to-end property: radius `1/2`,
center `(0,0,-1)`, Lambertian albedo `(0.8, 0.8, 0.0)`. -/
def sphereW : Sphere Lambertian := ⟨⟨0, 0, -1⟩, 1 / 2, ⟨⟨4 / 5, 4 / 5, 0⟩⟩⟩

/-- The ray from the origin straight down `-z`. -/
def rayW : Ray := ⟨⟨0, 0, 0⟩, ⟨0, 0, -1⟩⟩

/-- The expected hit record for `sphereW`, `rayW`. -/
def hitW : Hit Lambertian := ⟨⟨0, 0, -(1 / 2)⟩, ⟨0, 0, 1⟩, 1 / 2, true, ⟨⟨4 / 5, 4 / 5, 0⟩⟩⟩

lemma sphereW_hit_eval (t_max : ℝ) (ht : 1 / 2 < t_max) :
    sphereW.hit rayW (1 / 1000) t_max = some hitW := by
  have hs : Real.sqrt (1 / 4) = 1 / 2 := sqrt_eq_num (by norm_num) (by norm_num)
  simp only [Sphere.hit, sphereW, rayW, hitW, Hit.withFaceNormal, Ray.at, Vec3.div,
    Vec3.length_squared, Vec3.dot]
  norm_num [Vec3.eq_iff, Hit.mk.injEq, decide_eq_true_eq, hs, ht]

/-- Witness for C1 at the concrete scene `sphereW`/`rayW`. -/
theorem C1_witness :
    (hitW.point - sphereW.center).length = sphereW.radius ∧
    hitW.normal.length = 1 ∧
    hitW.normal.dot rayW.direction ≤ 0 ∧
    (((hitW.point - sphereW.center).div sphereW.radius).dot rayW.direction < 0 ↔
      hitW.front_face = true) :=
  C1_sphere_hit_geometry sphereW rayW (1 / 1000) 1 hitW (by norm_num [sphereW])
    (sphereW_hit_eval 1 (by norm_num))

/-- A unit sphere around the origin, hit from its center: the reported hit is
a back-face hit. -/
def sphereC : Sphere Unit := ⟨⟨0, 0, 0⟩, 1, ()⟩

/-- A ray starting at the center of `sphereC`. -/
def rayC : Ray := ⟨⟨0, 0, 0⟩, ⟨0, 0, 1⟩⟩

/-- The hit `sphereC` reports for `rayC` over `[0.001, 2)`: the exit point,
with the normal flipped to point against the ray and `front_face = false`. -/
def hitC : Hit Unit := ⟨⟨0, 0, 1⟩, ⟨0, 0, -1⟩, 1, false, ()⟩

lemma sphereC_hit_eval : sphereC.hit rayC (1 / 1000) 2 = some hitC := by
  simp only [Sphere.hit, sphereC, rayC, hitC, Hit.withFaceNormal, Ray.at, Vec3.div,
    Vec3.length_squared, Vec3.dot]
  norm_num [Vec3.eq_iff, Hit.mk.injEq, decide_eq_true_eq, decide_eq_false_iff_not,
    Real.sqrt_one]

/-- Counterexample to C1 as stated: on this reported hit the *reported* normal
has `normal · direction = -1 < 0` although `front_face` is `false`, refuting
the claimed biconditional "`normal · ray.direction < 0` exactly when
`front_face` is true". -/
theorem C1_counterexample :
    0 < sphereC.radius ∧
    sphereC.hit rayC (1 / 1000) 2 = some hitC ∧
    hitC.normal.dot rayC.direction < 0 ∧
    hitC.front_face = false :=
  ⟨by norm_num [sphereC], sphereC_hit_eval,
    by norm_num [hitC, rayC, Vec3.dot], rfl⟩

/-! ## C5: end-to-end single-sphere scene -/

/-- C5: for the sphere of radius `0.5` centered at `(0,0,-1)` and the ray from
the origin straight down `-z`, intersection over `[0.001, t_max)` for any
`t_max` beyond the hit (modelling the `+∞` upper bound of `ray_color`)
reports `t = 0.5`, point `(0,0,-0.5)`, and normal `(0,0,1)`. -/
theorem C5_end_to_end_sphere (t_max : ℝ) (ht : 1 / 2 < t_max) :
    sphereW.hit rayW (1 / 1000) t_max
      = some ⟨⟨0, 0, -(1 / 2)⟩, ⟨0, 0, 1⟩, 1 / 2, true, ⟨⟨4 / 5, 4 / 5, 0⟩⟩⟩ :=
  sphereW_hit_eval t_max ht

/-- Witness for C5 at `t_max = 1`. -/
theorem C5_witness :
    (1 : ℝ) / 2 < 1 ∧
    sphereW.hit rayW (1 / 1000) 1
      = some ⟨⟨0, 0, -(1 / 2)⟩, ⟨0, 0, 1⟩, 1 / 2, true, ⟨⟨4 / 5, 4 / 5, 0⟩⟩⟩ :=
  ⟨by norm_num, C5_end_to_end_sphere 1 (by norm_num)⟩

/-! ## C3: Dielectric with ri = 1 -/

lemma Vec3.neg_dot_le_one {u n : Vec3} (hu : u.dot u = 1) (hn : n.dot n = 1) :
    (-u).dot n ≤ 1 := by
  have h := Vec3.length_squared_nonneg (u + n)
  unfold Vec3.length_squared Vec3.dot at h
  unfold Vec3.dot at hu hn ⊢
  simp only [Vec3.add_x, Vec3.add_y, Vec3.add_z, Vec3.neg_x, Vec3.neg_y, Vec3.neg_z]
    at h ⊢
  nlinarith

/-- `refract` at refraction ratio 1 is the identity on unit incoming
directions whose dot against the unit normal is in `[0, 1]`. -/
lemma refract_eta_one {u n : Vec3} (hu : u.dot u = 1) (hn : n.dot n = 1)
    (hcos : 0 ≤ (-u).dot n) (hle : (-u).dot n ≤ 1) :
    refract u n 1 = u := by
  simp only [refract]
  rw [min_eq_left hle]
  have hperp : ((1 : ℝ) • (u + ((-u).dot n) • n)).length_squared
      = 1 - ((-u).dot n) * ((-u).dot n) := by
    rw [Vec3.length_squared_smul]
    have e3 : u.dot n = -((-u).dot n) := by rw [Vec3.neg_dot]; ring
    set D := (-u).dot n with hD
    unfold Vec3.dot at hu hn e3
    unfold Vec3.length_squared Vec3.dot
    simp only [Vec3.add_x, Vec3.add_y, Vec3.add_z, Vec3.smul_x, Vec3.smul_y, Vec3.smul_z]
    linear_combination hu + D * D * hn + 2 * D * e3
  have harg : 1 - ((1 : ℝ) • (u + ((-u).dot n) • n)).length_squared
      = ((-u).dot n) * ((-u).dot n) := by rw [hperp]; ring
  rw [harg, sqrt_eq_num hcos rfl]
  simp only [Vec3.eq_iff, Vec3.add_x, Vec3.add_y, Vec3.add_z, Vec3.smul_x, Vec3.smul_y,
    Vec3.smul_z]
  refine ⟨by ring, by ring, by ring⟩

/-- C3 (amended): `Dielectric::scatter` with `ri = 1.0` does not bend light
*when it takes the refraction branch*, i.e. whenever the uniform draw `rand`
is at least the Schlick reflectance `(1 − cos θ)^5`: the outgoing direction
is exactly the incoming unit direction.  (For draws below that reflectance
the source takes the mirror-reflection branch even at `ri = 1`, so the
claim's "for every random draw" fails; see `C3_counterexample`.)  The
hypotheses ask the ray direction to be nonzero, the hit normal to be unit
length, and the normal to be oriented against the ray (`cos θ ≥ 0`), all of
which `Hit::with_face_normal` guarantees for genuine hit records. -/
theorem C3_dielectric_identity {M : Type} (ray : Ray) (hit : Hit M) (rand : ℝ)
    (hd : ray.direction ≠ ⟨0, 0, 0⟩)
    (hn : hit.normal.length = 1)
    (hcos : 0 ≤ (-(ray.direction.normalize)).dot hit.normal)
    (hrand : reflectance ((-(ray.direction.normalize)).dot hit.normal) 1 ≤ rand) :
    Dielectric.scatter 1 ray hit rand
      = some (⟨1, 1, 1⟩,
          { origin := hit.point, direction := ray.direction.normalize }) := by
  have hu : ray.direction.normalize.dot ray.direction.normalize = 1 :=
    Vec3.dot_self_normalize hd
  have hn2 : hit.normal.dot hit.normal = 1 := by
    have h1 := Vec3.sq_length hit.normal
    rw [hn] at h1
    unfold Vec3.length_squared at h1
    norm_num at h1
    linarith [h1]
  have hle : (-(ray.direction.normalize)).dot hit.normal ≤ 1 :=
    Vec3.neg_dot_le_one hu hn2
  have heta : (if hit.front_face = true then 1 / (1 : ℝ) else 1) = 1 := by
    cases hit.front_face <;> norm_num
  have hsin : Real.sqrt (1 - (-(ray.direction.normalize)).dot hit.normal
      * ((-(ray.direction.normalize)).dot hit.normal)) ≤ 1 := by
    calc Real.sqrt (1 - (-(ray.direction.normalize)).dot hit.normal
          * ((-(ray.direction.normalize)).dot hit.normal))
        ≤ Real.sqrt 1 := Real.sqrt_le_sqrt
          (by nlinarith [mul_self_nonneg ((-(ray.direction.normalize)).dot hit.normal)])
      _ = 1 := Real.sqrt_one
  simp only [Dielectric.scatter]
  rw [heta, min_eq_left hle]
  rw [if_neg (by push_neg; exact ⟨by rw [one_mul]; linarith [hsin], hrand⟩)]
  rw [refract_eta_one hu hn2 hcos hle]

/-- Witness for C3 at `d = (0,0,-2)`, `n = (0,0,1)`, `rand = 1`. -/
theorem C3_witness :
    Dielectric.scatter 1 (Ray.mk ⟨0, 0, 0⟩ ⟨0, 0, -2⟩)
        (Hit.mk ⟨0, 0, 0⟩ ⟨0, 0, 1⟩ 1 true () : Hit Unit) 1
      = some (⟨1, 1, 1⟩,
          { origin := ⟨0, 0, 0⟩,
            direction := (Ray.mk ⟨0, 0, 0⟩ ⟨0, 0, -2⟩).direction.normalize }) := by
  have h4 : Real.sqrt 4 = 2 := sqrt_eq_num (by norm_num) (by norm_num)
  have hnorm : (⟨0, 0, -2⟩ : Vec3).normalize = ⟨0, 0, -1⟩ := by
    norm_num [Vec3.normalize, Vec3.length, Vec3.length_squared, Vec3.dot, Vec3.div,
      Vec3.eq_iff, h4]
  exact C3_dielectric_identity (Ray.mk ⟨0, 0, 0⟩ ⟨0, 0, -2⟩)
    (Hit.mk ⟨0, 0, 0⟩ ⟨0, 0, 1⟩ 1 true ()) 1
    (by norm_num [Vec3.eq_iff])
    (by norm_num [Vec3.length, Vec3.length_squared, Vec3.dot, Real.sqrt_one])
    (by rw [show (Ray.mk (⟨0, 0, 0⟩ : Vec3) ⟨0, 0, -2⟩).direction = ⟨0, 0, -2⟩ from rfl,
          hnorm]; norm_num [Vec3.dot])
    (by rw [show (Ray.mk (⟨0, 0, 0⟩ : Vec3) ⟨0, 0, -2⟩).direction = ⟨0, 0, -2⟩ from rfl,
          hnorm]; norm_num [Vec3.dot, reflectance])

lemma dielC_normalize : (⟨3, 0, -4⟩ : Vec3).normalize = ⟨3 / 5, 0, -(4 / 5)⟩ := by
  have h25 : Real.sqrt 25 = 5 := sqrt_eq_num (by norm_num) (by norm_num)
  norm_num [Vec3.normalize, Vec3.length, Vec3.length_squared, Vec3.dot, Vec3.div,
    Vec3.eq_iff, h25]

/-- Counterexample to C3 as stated: at `ri = 1`, incoming direction
`(3,0,-4)` (unit direction `(3/5,0,-4/5)`, so `cos θ = 4/5 < 1`) and random
draw `0` (a value `rand::random()` can produce), the Schlick reflectance
`(1/5)^5 > 0` exceeds the draw and the scatter returns the mirror reflection
`(3/5,0,4/5)`, not the incoming unit direction — the code does bend light for
some draws. -/
theorem C3_counterexample :
    Dielectric.scatter 1 (Ray.mk ⟨0, 0, 0⟩ ⟨3, 0, -4⟩)
        (Hit.mk ⟨0, 0, 0⟩ ⟨0, 0, 1⟩ 1 true () : Hit Unit) 0
      = some (⟨1, 1, 1⟩, { origin := ⟨0, 0, 0⟩, direction := ⟨3 / 5, 0, 4 / 5⟩ }) ∧
    (Ray.mk (⟨0, 0, 0⟩ : Vec3) ⟨3, 0, -4⟩).direction.normalize = ⟨3 / 5, 0, -(4 / 5)⟩ ∧
    (⟨3 / 5, 0, 4 / 5⟩ : Vec3) ≠ ⟨3 / 5, 0, -(4 / 5)⟩ := by
  have h925 : Real.sqrt (9 / 25) = 3 / 5 := sqrt_eq_num (by norm_num) (by norm_num)
  refine ⟨?_, dielC_normalize, by norm_num [Vec3.eq_iff]⟩
  simp only [Dielectric.scatter,
    show (Ray.mk (⟨0, 0, 0⟩ : Vec3) ⟨3, 0, -4⟩).direction = ⟨3, 0, -4⟩ from rfl,
    dielC_normalize]
  norm_num [Vec3.dot, reflectance, reflect, Vec3.eq_iff, h925]

/-! ## C6: every reported `t` lies in the half-open window -/

lemma sphere_hit_t_bound {M : Type} (s : Sphere M) (ray : Ray) (t_min t_max : ℝ)
    (h : Hit M) (hh : s.hit ray t_min t_max = some h) :
    t_min ≤ h.t ∧ h.t < t_max := by
  simp only [Sphere.hit] at hh
  split_ifs at hh with h1 h2 h3 h4
  · injection hh with hh; subst hh; simpa using h3
  · injection hh with hh; subst hh; simpa using h4

lemma foldMin_go_mem (l : List ℝ) : ∀ (a m : ℝ),
    l.foldl (fun acc b => some (acc.elim b (fun a₀ => min a₀ b))) (some a) = some m →
    m = a ∨ m ∈ l := by
  induction l with
  | nil =>
    intro a m h
    simp only [List.foldl_nil, Option.some.injEq] at h
    exact Or.inl h.symm
  | cons x xs ih =>
    intro a m h
    simp only [List.foldl_cons, Option.elim_some] at h
    rcases ih (min a x) m h with h' | h'
    · rcases le_total a x with hax | hax
      · rw [min_eq_left hax] at h'
        exact Or.inl h'
      · rw [min_eq_right hax] at h'
        exact Or.inr (by simp [h'])
    · exact Or.inr (List.mem_cons_of_mem x h')

lemma foldMin_mem {l : List ℝ} {m : ℝ} (h : foldMin l = some m) : m ∈ l := by
  unfold foldMin at h
  cases l with
  | nil => simp at h
  | cons x xs =>
    simp only [List.foldl_cons, Option.elim_none] at h
    rcases foldMin_go_mem xs x m h with h' | h'
    · simp [h']
    · exact List.mem_cons_of_mem x h'

lemma torus_hit_t_bound {M : Type} (eigs : ℝ → ℝ → ℝ → ℝ → ℝ → List ℂ)
    (tor : Torus M) (ray : Ray) (t_min t_max : ℝ) (h : Hit M)
    (hh : Torus.hit eigs tor ray t_min t_max = some h) :
    t_min ≤ h.t ∧ h.t < t_max := by
  simp only [Torus.hit] at hh
  split at hh
  · exact Option.noConfusion hh
  · rename_i solution heq
    injection hh with hh
    subst hh
    rw [Hit.withFaceNormal_t]
    have hmem := foldMin_mem heq
    rw [List.mem_filterMap] at hmem
    obtain ⟨eigen, -, hfe⟩ := hmem
    split_ifs at hfe with hb1 hb2
    · injection hfe with hfe
      rw [← hfe]
      exact hb2

lemma pgUpdate_inv (t_min t_max : ℝ) (st : ℝ × Option Vec3) (cand : Option Vec3)
    (nrm : Vec3)
    (ha : st.1 ≤ t_max)
    (hb : st.2 ≠ none → t_min ≤ st.1 ∧ st.1 < t_max) :
    (pgUpdate t_min st cand nrm).1 ≤ t_max ∧
    ((pgUpdate t_min st cand nrm).2 ≠ none →
      t_min ≤ (pgUpdate t_min st cand nrm).1 ∧ (pgUpdate t_min st cand nrm).1 < t_max) := by
  cases cand with
  | none => exact ⟨ha, hb⟩
  | some f =>
    simp only [pgUpdate]
    split_ifs with hacc
    · have hlt : f.z < t_max := lt_of_lt_of_le hacc.1.2 ha
      exact ⟨le_of_lt hlt, fun _ => ⟨hacc.1.1, hlt⟩⟩
    · exact ⟨ha, hb⟩

lemma pgStep_inv {M : Type} (solve : Vec3 → Vec3 → Vec3 → Vec3 → Option Vec3)
    (p : Parallelogram M) (ro rd : Vec3) (t_min t_max : ℝ)
    (st : ℝ × Option Vec3) (xyz : Fin 3 × Fin 3 × Fin 3)
    (ha : st.1 ≤ t_max)
    (hb : st.2 ≠ none → t_min ≤ st.1 ∧ st.1 < t_max) :
    (pgStep solve p ro rd t_min st xyz).1 ≤ t_max ∧
    ((pgStep solve p ro rd t_min st xyz).2 ≠ none →
      t_min ≤ (pgStep solve p ro rd t_min st xyz).1 ∧
      (pgStep solve p ro rd t_min st xyz).1 < t_max) := by
  simp only [pgStep]
  have h1 := pgUpdate_inv t_min t_max st
    (solve (p.axes xyz.1) (p.axes xyz.2.1) (-rd) (ro - p.corner))
    (-(p.normals xyz.2.2)) ha hb
  exact pgUpdate_inv t_min t_max _
    (solve (p.axes xyz.1) (p.axes xyz.2.1) (-rd) (ro - p.corner - p.axes xyz.2.2))
    (p.normals xyz.2.2) h1.1 h1.2

lemma pg_foldl_inv {M : Type} (solve : Vec3 → Vec3 → Vec3 → Vec3 → Option Vec3)
    (p : Parallelogram M) (ro rd : Vec3) (t_min t_max : ℝ) :
    ∀ (l : List (Fin 3 × Fin 3 × Fin 3)) (st : ℝ × Option Vec3),
      st.1 ≤ t_max → (st.2 ≠ none → t_min ≤ st.1 ∧ st.1 < t_max) →
      (l.foldl (pgStep solve p ro rd t_min) st).1 ≤ t_max ∧
      ((l.foldl (pgStep solve p ro rd t_min) st).2 ≠ none →
        t_min ≤ (l.foldl (pgStep solve p ro rd t_min) st).1 ∧
        (l.foldl (pgStep solve p ro rd t_min) st).1 < t_max) := by
  intro l
  induction l with
  | nil => intro st ha hb; exact ⟨ha, hb⟩
  | cons x xs ih =>
    intro st ha hb
    simp only [List.foldl_cons]
    have h1 := pgStep_inv solve p ro rd t_min t_max st x ha hb
    exact ih _ h1.1 h1.2

lemma parallelogram_hit_t_bound {M : Type}
    (solve : Vec3 → Vec3 → Vec3 → Vec3 → Option Vec3) (p : Parallelogram M)
    (ray : Ray) (t_min t_max : ℝ) (h : Hit M)
    (hh : Parallelogram.hit solve p ray t_min t_max = some h) :
    t_min ≤ h.t ∧ h.t < t_max := by
  simp only [Parallelogram.hit] at hh
  have hinv := pg_foldl_inv solve p ray.origin ray.direction t_min t_max TRIPLETS
    (t_max, none) (le_refl t_max) (by intro hc; exact absurd rfl hc)
  split at hh
  · exact Option.noConfusion hh
  · rename_i normal heq
    injection hh with hh
    subst hh
    rw [Hit.withFaceNormal_t]
    exact hinv.2 (by rw [heq]; exact Option.noConfusion)

lemma listHitAux_t_bound {A M : Type} (hitFn : A → Ray → ℝ → ℝ → Option (Hit M))
    (ray : Ray) (t_min T : ℝ)
    (hsound : ∀ o t_min' t_max' h, hitFn o ray t_min' t_max' = some h →
      t_min' ≤ h.t ∧ h.t < t_max') :
    ∀ (l : List A) (t_max : ℝ) (acc : Option (Hit M)),
      t_max ≤ T →
      (∀ hₐ, acc = some hₐ → t_min ≤ hₐ.t ∧ hₐ.t < T) →
      ∀ h, listHitAux hitFn ray t_min l t_max acc = some h →
        t_min ≤ h.t ∧ h.t < T := by
  intro l
  induction l with
  | nil =>
    intro t_max acc hub hacc h hh
    exact hacc h hh
  | cons o rest ih =>
    intro t_max acc hub hacc h hh
    cases hhit : hitFn o ray t_min t_max with
    | some h0 =>
      have hb := hsound o t_min t_max h0 hhit
      simp only [listHitAux, hhit] at hh
      exact ih h0.t (some h0) (le_trans (le_of_lt hb.2) hub)
        (fun hₐ ha => by
          injection ha with ha
          rw [← ha]
          exact ⟨hb.1, lt_of_lt_of_le hb.2 hub⟩) h hh
    | none =>
      simp only [listHitAux, hhit] at hh
      exact ih t_max acc hub hacc h hh

/-- C6: for every ray and window, every hit reported by `Sphere::hit`,
`Torus::hit`, `Parallelogram::hit` (for arbitrary eigenvalue/LU back-ends) or
the collection scan (whose members' hits respect their windows) has its
parameter in the half-open window: `t_min ≤ t < t_max`. -/
theorem C6_t_in_window :
    (∀ (M : Type) (s : Sphere M) (ray : Ray) (t_min t_max : ℝ) (h : Hit M),
        s.hit ray t_min t_max = some h → t_min ≤ h.t ∧ h.t < t_max) ∧
    (∀ (M : Type) (eigs : ℝ → ℝ → ℝ → ℝ → ℝ → List ℂ) (tor : Torus M) (ray : Ray)
        (t_min t_max : ℝ) (h : Hit M),
        Torus.hit eigs tor ray t_min t_max = some h → t_min ≤ h.t ∧ h.t < t_max) ∧
    (∀ (M : Type) (solve : Vec3 → Vec3 → Vec3 → Vec3 → Option Vec3)
        (p : Parallelogram M) (ray : Ray) (t_min t_max : ℝ) (h : Hit M),
        Parallelogram.hit solve p ray t_min t_max = some h →
        t_min ≤ h.t ∧ h.t < t_max) ∧
    (∀ (A M : Type) (hitFn : A → Ray → ℝ → ℝ → Option (Hit M)) (ray : Ray)
        (objs : List A) (t_min t_max : ℝ) (h : Hit M),
        (∀ o t_min' t_max' h', hitFn o ray t_min' t_max' = some h' →
          t_min' ≤ h'.t ∧ h'.t < t_max') →
        listHit hitFn objs ray t_min t_max = some h → t_min ≤ h.t ∧ h.t < t_max) :=
  ⟨fun _ s ray t_min t_max h hh => sphere_hit_t_bound s ray t_min t_max h hh,
   fun _ eigs tor ray t_min t_max h hh => torus_hit_t_bound eigs tor ray t_min t_max h hh,
   fun _ solve p ray t_min t_max h hh =>
     parallelogram_hit_t_bound solve p ray t_min t_max h hh,
   fun _ _ hitFn ray objs t_min t_max h hsound hh =>
     listHitAux_t_bound hitFn ray t_min t_max hsound objs t_max none (le_refl t_max)
       (fun _ ha => Option.noConfusion ha) h hh⟩

/-- A constant eigenvalue oracle producing the single real root 1. -/
def eigsK : ℝ → ℝ → ℝ → ℝ → ℝ → List ℂ := fun _ _ _ _ _ => [⟨1, 0⟩]

/-- A concrete torus for evaluating `Torus.hit` with `eigsK`. -/
def torusK : Torus Unit := ⟨⟨0, 0, 0⟩, 1, 1 / 2, ()⟩

/-- A ray along `+x` from the origin. -/
def rayK : Ray := ⟨⟨0, 0, 0⟩, ⟨1, 0, 0⟩⟩

/-- The hit `Torus.hit eigsK torusK rayK 0 2` produces. -/
def hitK : Hit Unit := ⟨⟨1, 0, 0⟩, ⟨0, -1, 0⟩, 1, false, ()⟩

lemma torusK_hit_eval : Torus.hit eigsK torusK rayK 0 2 = some hitK := by
  simp only [Torus.hit, eigsK, torusK, rayK, hitK, foldMin]
  norm_num [Vec3.dot, Vec3.length_squared, List.filterMap, Ray.at, Hit.withFaceNormal,
    Vec3.normalize, Vec3.length, Vec3.div, Vec3.eq_iff, Hit.mk.injEq, Real.sqrt_one,
    decide_eq_false_iff_not]

/-- An LU oracle that returns the right-hand side unchanged. -/
def solveK : Vec3 → Vec3 → Vec3 → Vec3 → Option Vec3 := fun _ _ _ rhs => some rhs

/-- A concrete parallelogram for evaluating `Parallelogram.hit` with `solveK`. -/
def pgramK : Parallelogram Unit :=
  ⟨⟨0, 0, 0⟩, fun _ => ⟨0, 0, 1⟩, fun _ => ⟨1, 0, 0⟩, ()⟩

/-- A ray from inside the `[0,1)` parameter box, along `+z`. -/
def rayP : Ray := ⟨⟨1 / 2, 1 / 2, 1 / 2⟩, ⟨0, 0, 1⟩⟩

/-- The hit `Parallelogram.hit solveK pgramK rayP 0 1` produces. -/
def hitP : Hit Unit := ⟨⟨1 / 2, 1 / 2, 1⟩, ⟨1, 0, 0⟩, 1 / 2, false, ()⟩

lemma pgramK_hit_eval : Parallelogram.hit solveK pgramK rayP 0 1 = some hitP := by
  norm_num [Parallelogram.hit, TRIPLETS, pgStep, pgUpdate, solveK, pgramK, rayP, hitP,
    List.foldl, Ray.at, Hit.withFaceNormal, Vec3.dot, Vec3.eq_iff, Hit.mk.injEq,
    decide_eq_false_iff_not]

/-- The member-hit function of a toy scene whose member `o : ℝ` is hit exactly
at parameter `o`, used to exercise the generic collection scan. -/
def toyFn : ℝ → Ray → ℝ → ℝ → Option (Hit Unit) := fun o _ t_min t_max =>
  if t_min ≤ o ∧ o < t_max then some ⟨⟨o, o, o⟩, ⟨o, o, o⟩, o, true, ()⟩ else none

/-- A ray for the toy scene (ignored by `toyFn`). -/
def rayT : Ray := ⟨⟨0, 0, 0⟩, ⟨1, 0, 0⟩⟩

lemma toyFn_sound : ∀ (o t_min t_max : ℝ) (h : Hit Unit),
    toyFn o rayT t_min t_max = some h → t_min ≤ h.t ∧ h.t < t_max := by
  intro o t_min t_max h hh
  unfold toyFn at hh
  split_ifs at hh with hw
  injection hh with hh
  subst hh
  exact hw

lemma toy_listHit_eval :
    listHit toyFn [2, 1] rayT 0 10 = some ⟨⟨1, 1, 1⟩, ⟨1, 1, 1⟩, 1, true, ()⟩ := by
  simp only [listHit, listHitAux, toyFn]
  norm_num

/-- Witness for C6: each component applied to a concrete scene. -/
theorem C6_witness :
    ((1 : ℝ) / 1000 ≤ hitW.t ∧ hitW.t < 1) ∧
    ((0 : ℝ) ≤ hitK.t ∧ hitK.t < 2) ∧
    ((0 : ℝ) ≤ hitP.t ∧ hitP.t < 1) ∧
    ((0 : ℝ) ≤ (⟨⟨1, 1, 1⟩, ⟨1, 1, 1⟩, 1, true, ()⟩ : Hit Unit).t ∧
      (⟨⟨1, 1, 1⟩, ⟨1, 1, 1⟩, 1, true, ()⟩ : Hit Unit).t < 10) :=
  ⟨C6_t_in_window.1 Lambertian sphereW rayW (1 / 1000) 1 hitW
      (sphereW_hit_eval 1 (by norm_num)),
   C6_t_in_window.2.1 Unit eigsK torusK rayK 0 2 hitK torusK_hit_eval,
   C6_t_in_window.2.2.1 Unit solveK pgramK rayP 0 1 hitP pgramK_hit_eval,
   C6_t_in_window.2.2.2 ℝ Unit toyFn rayT [2, 1] 0 10 ⟨⟨1, 1, 1⟩, ⟨1, 1, 1⟩, 1, true, ()⟩
      toyFn_sound toy_listHit_eval⟩

/-! ## C2: the collection scan returns the closest member hit -/

/-- A member-hit function behaving as an intersection test along a fixed ray:
member `o` has a window-independent candidate parameter set `S o`, and
`hitFn o` reports the minimum candidate inside any half-open window (`none`
exactly when the window contains no candidate).  The repository's primitives
fit this shape (a sphere's candidates are its quadratic roots, and so on). -/
def MinHitOn {A M : Type} (hitFn : A → Ray → ℝ → ℝ → Option (Hit M)) (ray : Ray)
    (S : A → Set ℝ) : Prop :=
  ∀ o t_min t_max,
    (∀ h, hitFn o ray t_min t_max = some h →
        h.t ∈ S o ∧ (t_min ≤ h.t ∧ h.t < t_max) ∧
        ∀ s ∈ S o, t_min ≤ s → s < t_max → h.t ≤ s) ∧
    (hitFn o ray t_min t_max = none → ∀ s ∈ S o, ¬(t_min ≤ s ∧ s < t_max))

lemma listHitAux_minspec {A M : Type} {hitFn : A → Ray → ℝ → ℝ → Option (Hit M)}
    {ray : Ray} {S : A → Set ℝ} (t_min : ℝ) (hS : MinHitOn hitFn ray S) :
    ∀ (rest : List A) (cur : ℝ) (acc : Option (Hit M)),
      (∀ hₐ, acc = some hₐ → hₐ.t = cur) →
      ((listHitAux hitFn ray t_min rest cur acc = none →
          acc = none ∧ ∀ o ∈ rest, ∀ s ∈ S o, ¬(t_min ≤ s ∧ s < cur)) ∧
       (∀ h, listHitAux hitFn ray t_min rest cur acc = some h →
          (acc = some h ∨ ∃ o ∈ rest, h.t ∈ S o ∧ t_min ≤ h.t ∧ h.t < cur) ∧
          h.t ≤ cur ∧
          ∀ o ∈ rest, ∀ s ∈ S o, t_min ≤ s → s < cur → h.t ≤ s)) := by
  intro rest
  induction rest with
  | nil =>
    intro cur acc hacc
    constructor
    · intro hnone
      simp only [listHitAux] at hnone
      exact ⟨hnone, by simp⟩
    · intro h hsome
      simp only [listHitAux] at hsome
      exact ⟨Or.inl hsome, le_of_eq (hacc h hsome), by simp⟩
  | cons o rest ih =>
    intro cur acc hacc
    cases hhit : hitFn o ray t_min cur with
    | some h0 =>
      obtain ⟨hmem0, hb0, hmin0⟩ := (hS o t_min cur).1 h0 hhit
      have ihs := ih h0.t (some h0) (fun hₐ ha => by injection ha with ha; rw [← ha])
      constructor
      · intro hnone
        simp only [listHitAux, hhit] at hnone
        exact Option.noConfusion (ihs.1 hnone).1
      · intro h hsome
        simp only [listHitAux, hhit] at hsome
        obtain ⟨horig, hle, hmin⟩ := ihs.2 h hsome
        refine ⟨?_, le_of_lt (lt_of_le_of_lt hle hb0.2), ?_⟩
        · rcases horig with he | ⟨o1, ho1, hm1, hl1, hh1⟩
          · injection he with he
            subst he
            exact Or.inr ⟨o, List.mem_cons_self o rest, hmem0, hb0.1, hb0.2⟩
          · exact Or.inr ⟨o1, List.mem_cons_of_mem o ho1, hm1, hl1, lt_trans hh1 hb0.2⟩
        · intro o2 ho2 s hs hls hhs
          rcases List.mem_cons.mp ho2 with rfl | ho2'
          · exact le_trans hle (hmin0 s hs hls hhs)
          · rcases lt_or_le s h0.t with hcase | hcase
            · exact hmin o2 ho2' s hs hls hcase
            · exact le_trans hle hcase
    | none =>
      have hnone0 := (hS o t_min cur).2 hhit
      have ihs := ih cur acc hacc
      constructor
      · intro hres
        simp only [listHitAux, hhit] at hres
        obtain ⟨ha, hrest⟩ := ihs.1 hres
        refine ⟨ha, ?_⟩
        intro o2 ho2 s hs
        rcases List.mem_cons.mp ho2 with rfl | ho2'
        · exact hnone0 s hs
        · exact hrest o2 ho2' s hs
      · intro h hres
        simp only [listHitAux, hhit] at hres
        obtain ⟨horig, hle, hmin⟩ := ihs.2 h hres
        refine ⟨?_, hle, ?_⟩
        · rcases horig with he | ⟨o1, ho1, hm⟩
          · exact Or.inl he
          · exact Or.inr ⟨o1, List.mem_cons_of_mem o ho1, hm⟩
        · intro o2 ho2 s hs hls hhs
          rcases List.mem_cons.mp ho2 with rfl | ho2'
          · exact absurd ⟨hls, hhs⟩ (hnone0 s hs)
          · exact hmin o2 ho2' s hs hls hhs

/-- C2: for members whose hit functions behave as window-minimum intersection
tests (`MinHitOn`), the collection scan of `impl Hittable for [T]` returns
`None` exactly when no member reports a hit in the full window, and otherwise
returns a hit whose `t` equals some member's full-window hit `t` and is
minimal among all members' full-window hit parameters. -/
theorem C2_collection_closest {A M : Type}
    (hitFn : A → Ray → ℝ → ℝ → Option (Hit M)) (ray : Ray) (S : A → Set ℝ)
    (hS : MinHitOn hitFn ray S) (objs : List A) (t_min t_max : ℝ) :
    (listHit hitFn objs ray t_min t_max = none ↔
      ∀ o ∈ objs, hitFn o ray t_min t_max = none) ∧
    (∀ h, listHit hitFn objs ray t_min t_max = some h →
      (∃ o ∈ objs, ∃ h', hitFn o ray t_min t_max = some h' ∧ h'.t = h.t) ∧
      ∀ o ∈ objs, ∀ h', hitFn o ray t_min t_max = some h' → h.t ≤ h'.t) := by
  have main := listHitAux_minspec t_min hS objs t_max none
    (fun _ ha => Option.noConfusion ha)
  constructor
  · constructor
    · intro hnone o ho
      obtain ⟨-, hcand⟩ := main.1 hnone
      cases hfo : hitFn o ray t_min t_max with
      | none => rfl
      | some h' =>
        obtain ⟨hmem, hb, -⟩ := (hS o t_min t_max).1 h' hfo
        exact absurd hb (hcand o ho h'.t hmem)
    · intro hall
      cases hres : listHit hitFn objs ray t_min t_max with
      | none => rfl
      | some h =>
        obtain ⟨horig, -, -⟩ := main.2 h hres
        rcases horig with he | ⟨o, ho, hmem, hlo, hhi⟩
        · exact Option.noConfusion he
        · exact absurd ⟨hlo, hhi⟩ ((hS o t_min t_max).2 (hall o ho) h.t hmem)
  · intro h hres
    obtain ⟨horig, -, hmin⟩ := main.2 h hres
    rcases horig with he | ⟨o, ho, hmem, hlo, hhi⟩
    · exact Option.noConfusion he
    constructor
    · cases hfo : hitFn o ray t_min t_max with
      | none => exact absurd ⟨hlo, hhi⟩ ((hS o t_min t_max).2 hfo h.t hmem)
      | some h' =>
        obtain ⟨hmem', hb', hmin'⟩ := (hS o t_min t_max).1 h' hfo
        exact ⟨o, ho, h', hfo,
          le_antisymm (hmin' h.t hmem hlo hhi) (hmin o ho h'.t hmem' hb'.1 hb'.2)⟩
    · intro o' ho' h' hfo'
      obtain ⟨hmem', hb', -⟩ := (hS o' t_min t_max).1 h' hfo'
      exact hmin o' ho' h'.t hmem' hb'.1 hb'.2

lemma toy_minspec : MinHitOn toyFn rayT (fun o => {o}) := by
  intro o t_min t_max
  constructor
  · intro h hh
    unfold toyFn at hh
    split_ifs at hh with hw
    injection hh with hh
    subst hh
    refine ⟨by simp, ⟨hw.1, hw.2⟩, ?_⟩
    intro s hs _ _
    rw [Set.mem_singleton_iff] at hs
    subst hs
    exact le_refl _
  · intro hn s hs
    unfold toyFn at hn
    split_ifs at hn with hw
    rw [Set.mem_singleton_iff] at hs
    subst hs
    exact hw

/-- Witness for C2: the toy two-member scene, scanned over `[0, 10)`. -/
theorem C2_witness :
    (listHit toyFn [2, 1] rayT 0 10 = none ↔
      ∀ o ∈ [(2 : ℝ), 1], toyFn o rayT 0 10 = none) ∧
    (∀ h, listHit toyFn [2, 1] rayT 0 10 = some h →
      (∃ o ∈ [(2 : ℝ), 1], ∃ h', toyFn o rayT 0 10 = some h' ∧ h'.t = h.t) ∧
      ∀ o ∈ [(2 : ℝ), 1], ∀ h', toyFn o rayT 0 10 = some h' → h.t ≤ h'.t) :=
  C2_collection_closest toyFn rayT (fun o => {o}) toy_minspec [2, 1] 0 10

end RayTracing
